import Mathlib

/-!
Shallow embedding of the linear-secret-sharing repository
(`shamir.py`, `hash.py`, `shamir_with_hash.py`).

Python arbitrary-precision integers are modelled as `Int`/`Nat`; Python's
`%` with a positive modulus agrees with `Int.emod`.  A raised `ValueError`
is modelled as `Except.error` with a constructor per raise site.  The
global PRNG (`random.randint`) is modelled as an explicit tape of naturals
together with a position counter; `randint 0 (p-1)` reads the tape at the
current position modulo `p` and advances the position.
-/

/-- Error conditions, one constructor per distinct raise site of the source.
`invalidParams` is the threshold check in `split_secret`; `byteTooLarge` is
the per-byte field-range check; `noInverse` is the `ValueError` raised by
`_mod_inverse`; `emptyShares` is the empty-input check of reconstruction;
`indexOutOfRange` models a Python `IndexError` on share indexing;
`inputDimMismatch` is the dimension check of `HashFunction.hash`. -/
inductive Err where
  | invalidParams
  | byteTooLarge
  | noInverse
  | emptyShares
  | indexOutOfRange
  | inputDimMismatch
  deriving DecidableEq

/-- Decidable equality of results, used to evaluate the embedding on
concrete inputs. -/
instance {ε α : Type _} [DecidableEq ε] [DecidableEq α] : DecidableEq (Except ε α) := fun
  | .error a, .error b =>
    if h : a = b then isTrue (congrArg Except.error h)
    else isFalse fun hh => h (Except.error.inj hh)
  | .error _, .ok _ => isFalse fun hh => Except.noConfusion hh
  | .ok _, .error _ => isFalse fun hh => Except.noConfusion hh
  | .ok a, .ok b =>
    if h : a = b then isTrue (congrArg Except.ok h)
    else isFalse fun hh => h (Except.ok.inj hh)

/-- Default modulus of `ShamirSecretSharing.__init__` (`61 * 1000000007`,
commented "Large prime" in the source). -/
def DEFAULT_PRIME : Nat := 61 * 1000000007

/-- Modulus used by `LinearSecretSharingWithHashing` and as the default `q`
of `HashFunction` (`2**256 - 2**224 + 2**192 + 2**128 - 1`). -/
def P256 : Nat := 2 ^ 256 - 2 ^ 224 + 2 ^ 192 + 2 ^ 128 - 1

/-- State of the global pseudo-random generator: an infinite tape of
naturals and the current read position. -/
structure RNG where
  tape : Nat → Nat
  pos : Nat

/-- `random.randint(lo, hi)`: one inclusive-range draw from the tape. -/
def randint (lo hi : Nat) (g : RNG) : Nat × RNG :=
  (lo + g.tape g.pos % (hi - lo + 1), ⟨g.tape, g.pos + 1⟩)

/-- `[random.randint(0, p - 1) for _ in range(cnt)]`: a list of `cnt`
field-element draws, consumed left to right. -/
def randList (p : Nat) : Nat → RNG → List Int × RNG
  | 0, g => ([], g)
  | cnt + 1, g =>
    let (v, g1) := randint 0 (p - 1) g
    let (rest, g2) := randList p cnt g1
    ((v : Int) :: rest, g2)

/-- `_extended_gcd(a, b)` of the source, with an explicit fuel argument to
make the `(a, b) ↦ (b % a, a)` recursion structural; `extended_gcd` below
supplies fuel `a + 1`, which is always sufficient since the first argument
strictly decreases. -/
def egcdAux : Nat → Nat → Nat → Nat × Int × Int
  | 0, _, b => (b, 0, 1)
  | f + 1, a, b =>
    if a = 0 then (b, 0, 1)
    else
      let r := egcdAux f (b % a) a
      (r.1, r.2.2 - ((b / a : Nat) : Int) * r.2.1, r.2.1)

/-- `_extended_gcd(a, b)`: returns `(g, x, y)` with `a*x + b*y = g`. -/
def extended_gcd (a b : Nat) : Nat × Int × Int := egcdAux (a + 1) a b

/-- `_mod_inverse(a, m)`: normalizes negative `a` into `[0, m)`, runs the
extended Euclidean algorithm and fails when the gcd is not 1. -/
def mod_inverse (a : Int) (m : Nat) : Except Err Int :=
  let a1 : Int := if a < 0 then (a % (m : Int) + (m : Int)) % (m : Int) else a
  let r := extended_gcd a1.toNat m
  if r.1 ≠ 1 then .error .noInverse
  else .ok (r.2.1 % (m : Int))

/-- `_evaluate_polynomial(coeffs, x)`: Horner evaluation over the reversed
coefficient list, reducing mod `p` at each step. -/
def evaluate_polynomial (p : Nat) (coeffs : List Int) (x : Int) : Int :=
  coeffs.reverse.foldl (fun result coeff => (result * x + coeff) % (p : Int)) 0

/-- Per-byte loop of `split_secret`: checks the byte against the field,
draws `k - 1` random coefficients, and evaluates the polynomial at
`x = 1..n`.  Returns the per-byte share lists together with the final RNG
state (on error, the RNG state at the raise point). -/
def splitBytes (p n k : Nat) : List Nat → RNG → Except Err (List (List (Int × Int))) × RNG
  | [], g => (.ok [], g)
  | b :: rest, g =>
    if p ≤ b then (.error .byteTooLarge, g)
    else
      let (rcoeffs, g1) := randList p (k - 1) g
      let coeffs : List Int := (b : Int) :: rcoeffs
      let sharesForByte := (List.range n).map fun (i : Nat) =>
        (((i : Int) + 1), evaluate_polynomial p coeffs ((i : Int) + 1))
      match splitBytes p n k rest g1 with
      | (.ok bs, g2) => (.ok (sharesForByte :: bs), g2)
      | (.error e, g2) => (.error e, g2)

/-- `split_secret(secret, n, k)`: validates the threshold, splits each byte,
then transposes `byte_shares` so that share `j` lists the `j`-th point of
every byte in byte order. -/
def split_secret (p : Nat) (secret : List Nat) (n k : Nat) (g : RNG) :
    Except Err (List (List (Int × Int))) × RNG :=
  if k > n ∨ k < 2 then (.error .invalidParams, g)
  else
    match splitBytes p n k secret g with
    | (.ok byteShares, g1) =>
      (.ok ((List.range n).map fun si =>
        (List.range secret.length).map fun bi =>
          (byteShares.getD bi []).getD si (0, 0)), g1)
    | (.error e, g1) => (.error e, g1)

/-- `[share[byte_index] for share in shares]`: collects the point at one
byte index from every share, failing like Python's `IndexError` when a
share is too short. -/
def getPoints : List (List (Int × Int)) → Nat → Except Err (List (Int × Int))
  | [], _ => .ok []
  | s :: rest, bi =>
    if h : bi < s.length then
      match getPoints rest bi with
      | .error e => .error e
      | .ok ps => .ok (s.get ⟨bi, h⟩ :: ps)
    else .error .indexOutOfRange

/-- Inner loop of the Lagrange interpolation: the running `numerator` and
`denominator` products over all point indices `i ≠ j`, reduced mod `p` at
every step. -/
def ndStep (p : Nat) (pts : List (Int × Int)) (j : Nat) (nd : Int × Int) (i : Nat) :
    Int × Int :=
  if i ≠ j then
    ((nd.1 * (0 - (pts.getD i (0, 0)).1)) % (p : Int),
     (nd.2 * ((pts.getD j (0, 0)).1 - (pts.getD i (0, 0)).1)) % (p : Int))
  else nd

/-- The running `numerator`/`denominator` pair after the full inner loop. -/
def numden (p : Nat) (pts : List (Int × Int)) (j : Nat) : Int × Int :=
  (List.range pts.length).foldl (ndStep p pts j) (1, 1)

/-- One iteration of the outer Lagrange loop: computes the basis value for
point `j` (failing if the denominator has no modular inverse) and adds
`y_j * basis` to the accumulator. -/
def lagrangeStep (p : Nat) (pts : List (Int × Int)) (secret : Int) (j : Nat) :
    Except Err Int :=
  let nd := numden p pts j
  match mod_inverse nd.2 p with
  | .error e => .error e
  | .ok inv =>
    .ok ((secret + (pts.getD j (0, 0)).2 * ((nd.1 * inv) % (p : Int))) % (p : Int))

/-- The outer Lagrange loop: folds `lagrangeStep` over the point indices,
aborting at the first failure. -/
def lagrangeFold (p : Nat) (pts : List (Int × Int)) : Int → List Nat → Except Err Int
  | secret, [] => .ok secret
  | secret, j :: rest =>
    match lagrangeStep p pts secret j with
    | .error e => .error e
    | .ok s2 => lagrangeFold p pts s2 rest

/-- The full Lagrange interpolation of one byte at `x = 0`. -/
def lagrangeAtZero (p : Nat) (pts : List (Int × Int)) : Except Err Int :=
  lagrangeFold p pts 0 (List.range pts.length)

/-- Post-processing of one reconstructed byte: the final `% prime` and the
fold into `[0, 255]` when the value exceeds 255. -/
def finalizeByte (p : Nat) (v : Int) : Int :=
  let s := v % (p : Int)
  if s > 255 then s % 256 else s

/-- The reconstruction loop over byte indices: for each index, collect the
points, interpolate, and post-process, aborting at the first failure. -/
def reconstructBytes (p : Nat) (shares : List (List (Int × Int))) :
    List Nat → Except Err (List Nat)
  | [] => .ok []
  | bi :: rest =>
    match getPoints shares bi with
    | .error e => .error e
    | .ok pts =>
      match lagrangeAtZero p pts with
      | .error e => .error e
      | .ok s =>
        match reconstructBytes p shares rest with
        | .error e => .error e
        | .ok vs => .ok ((finalizeByte p s).toNat :: vs)

/-- `reconstruct_secret(shares)`: rejects an empty list, then interpolates
each of the first `len(shares[0])` byte positions at `x = 0`. -/
def reconstruct_secret (p : Nat) (shares : List (List (Int × Int))) :
    Except Err (List Nat) :=
  if shares.isEmpty then .error .emptyShares
  else reconstructBytes p shares (List.range (shares.headD []).length)

/-- `HashFunction` of `hash.py`: an `l × k` matrix over `F_q`. -/
structure HashFunction where
  k : Nat
  l : Nat
  q : Nat
  matrix : List (List Int)

/-- `HashFunction.hash(x)`: matrix-vector product mod `q`, rejecting inputs
of the wrong dimension. -/
def HashFunction.hash (H : HashFunction) (x : List Int) : Except Err (List Int) :=
  if x.length ≠ H.k then .error .inputDimMismatch
  else .ok ((List.range H.l).map fun i =>
    (List.range H.k).foldl
      (fun val j => (val + (H.matrix.getD i []).getD j 0 * x.getD j 0) % (H.q : Int)) 0)

/-- `_sample_preimage(secret, hash_func)` of `shamir_with_hash.py`: draws a
random vector `x`, computes `h(x)` and the residual adjustment, then
returns `x` unadjusted (the adjustment is discarded, as in the source). -/
def sample_preimage (p : Nat) (secret : List Int) (hash_func : HashFunction)
    (g : RNG) : Except Err (List Int) × RNG :=
  let (x, g1) := randList p hash_func.k g
  match hash_func.hash x with
  | .error e => (.error e, g1)
  | .ok hx =>
    let _adjustment := (List.range secret.length).map fun i =>
      (secret.getD i 0 - hx.getD i 0) % (p : Int)
    (.ok x, g1)

/-- `reconstruct_secret_with_hashing(shares, hash_func)`: the same code as
`reconstruct_secret` with the 256-bit modulus; the `hash_func` argument is
never read by the body. -/
def reconstruct_secret_with_hashing (shares : List (List (Int × Int)))
    (hash_func : HashFunction) : Except Err (List Nat) :=
  if shares.isEmpty then .error .emptyShares
  else reconstructBytes P256 shares (List.range (shares.headD []).length)

/-! ### Correctness of the extended Euclidean algorithm -/

theorem egcdAux_spec : ∀ (f a b : Nat), a < f →
    (egcdAux f a b).1 = Nat.gcd a b ∧
    (a : Int) * (egcdAux f a b).2.1 + (b : Int) * (egcdAux f a b).2.2 =
      (Nat.gcd a b : Int) := by
  intro f
  induction f with
  | zero => intro a b h; omega
  | succ f ih =>
    intro a b h
    by_cases ha : a = 0
    · subst ha
      simp [egcdAux, Nat.gcd_zero_left]
    · have hlt : b % a < f :=
        lt_of_lt_of_le (Nat.mod_lt b (Nat.pos_of_ne_zero ha)) (by omega)
      obtain ⟨ih1, ih2⟩ := ih (b % a) a hlt
      have hgcd : Nat.gcd a b = Nat.gcd (b % a) a := Nat.gcd_rec a b
      have hdm : (a : Int) * ((b / a : Nat) : Int) + ((b % a : Nat) : Int) = (b : Int) := by
        exact_mod_cast Nat.div_add_mod b a
      refine ⟨?_, ?_⟩
      · simp only [egcdAux, if_neg ha]
        rw [ih1, hgcd]
      · simp only [egcdAux, if_neg ha]
        rw [hgcd]
        linear_combination ih2 - (egcdAux f (b % a) a).2.1 * hdm

theorem extended_gcd_spec (a b : Nat) :
    (extended_gcd a b).1 = Nat.gcd a b ∧
    (a : Int) * (extended_gcd a b).2.1 + (b : Int) * (extended_gcd a b).2.2 =
      (Nat.gcd a b : Int) :=
  egcdAux_spec (a + 1) a b (Nat.lt_succ_self a)

/-! ### Correctness of `mod_inverse` -/

/-- The normalized first argument of `mod_inverse`, as a natural number. -/
def normInput (a : Int) (m : Nat) : Nat :=
  (if a < 0 then (a % (m : Int) + (m : Int)) % (m : Int) else a).toNat

theorem mod_inverse_eq (a : Int) (m : Nat) :
    mod_inverse a m =
      if (extended_gcd (normInput a m) m).1 ≠ 1 then .error .noInverse
      else .ok ((extended_gcd (normInput a m) m).2.1 % (m : Int)) := rfl

theorem normInput_gcd (a : Int) (m : Nat) (hm : 0 < m) :
    Nat.gcd (normInput a m) m = Nat.gcd (a % (m : Int)).toNat m := by
  unfold normInput
  by_cases ha : a < 0
  · rw [if_pos ha, (Int.add_modEq_right).eq, (Int.mod_modEq a (m : Int)).eq]
  · rw [if_neg ha]
    push_neg at ha
    have h1 : (a % (m : Int)).toNat = a.toNat % m := by
      have : a = ((a.toNat : Nat) : Int) := (Int.toNat_of_nonneg ha).symm
      rw [this, ← Int.natCast_mod, Int.toNat_natCast, Int.toNat_natCast]
    rw [h1, Nat.gcd_comm, Nat.gcd_rec]

theorem normInput_modEq (a : Int) (m : Nat) (hm : 0 < m) :
    ((normInput a m : Nat) : Int) ≡ a [ZMOD (m : Int)] := by
  have hm' : ((m : Int)) ≠ 0 := by exact_mod_cast Nat.pos_iff_ne_zero.mp hm
  unfold normInput
  by_cases ha : a < 0
  · rw [if_pos ha]
    have hnn : 0 ≤ (a % (m : Int) + (m : Int)) % (m : Int) := Int.emod_nonneg _ hm'
    rw [Int.toNat_of_nonneg hnn]
    calc (a % (m : Int) + (m : Int)) % (m : Int)
        ≡ a % (m : Int) + (m : Int) [ZMOD (m : Int)] := Int.mod_modEq _ _
      _ ≡ a % (m : Int) [ZMOD (m : Int)] := Int.add_modEq_right
      _ ≡ a [ZMOD (m : Int)] := Int.mod_modEq a _
  · rw [if_neg ha]
    push_neg at ha
    rw [Int.toNat_of_nonneg ha]

theorem mod_inverse_ok {a : Int} {m : Nat} (hm : 1 < m)
    (h : Nat.gcd (a % (m : Int)).toNat m = 1) :
    ∃ r, mod_inverse a m = .ok r ∧ 0 ≤ r ∧ r < (m : Int) ∧
      (a * r) % (m : Int) = 1 := by
  have hm0 : 0 < m := lt_trans Nat.zero_lt_one hm
  have hm' : ((m : Int)) ≠ 0 := by exact_mod_cast Nat.pos_iff_ne_zero.mp hm0
  have hmz : (0 : Int) < (m : Int) := by exact_mod_cast hm0
  obtain ⟨hg, hbez⟩ := extended_gcd_spec (normInput a m) m
  have hg1 : (extended_gcd (normInput a m) m).1 = 1 := by
    rw [hg, normInput_gcd a m hm0, h]
  refine ⟨(extended_gcd (normInput a m) m).2.1 % (m : Int),
    ?_, Int.emod_nonneg _ hm', Int.emod_lt_of_pos _ hmz, ?_⟩
  · rw [mod_inverse_eq, if_neg (by simp [hg1])]
  · set x := (extended_gcd (normInput a m) m).2.1 with hx
    set y := (extended_gcd (normInput a m) m).2.2 with hy
    have hone : ((Nat.gcd (normInput a m) m : Nat) : Int) = 1 := by
      rw [normInput_gcd a m hm0, h]; norm_num
    have hxy : ((normInput a m : Nat) : Int) * x + (m : Int) * y = 1 := by
      rw [hbez, hone]
    have h1 : ((normInput a m : Nat) : Int) * x ≡ 1 [ZMOD (m : Int)] := by
      rw [Int.modEq_iff_dvd]
      refine ⟨y, by linarith⟩
    have h2 : a * (x % (m : Int)) ≡ ((normInput a m : Nat) : Int) * x [ZMOD (m : Int)] := by
      calc a * (x % (m : Int)) ≡ a * x [ZMOD (m : Int)] :=
            (Int.mod_modEq x (m : Int)).mul_left a
        _ ≡ ((normInput a m : Nat) : Int) * x [ZMOD (m : Int)] :=
            ((normInput_modEq a m hm0).symm).mul_right x
    have h3 : a * (x % (m : Int)) ≡ 1 [ZMOD (m : Int)] := h2.trans h1
    have h1m : (1 : Int) % (m : Int) = 1 :=
      Int.emod_eq_of_lt (by norm_num) (by exact_mod_cast hm)
    have h4 := h3.eq
    rw [h1m] at h4
    exact h4

theorem mod_inverse_err {a : Int} {m : Nat} (hm : 0 < m)
    (h : Nat.gcd (a % (m : Int)).toNat m ≠ 1) :
    mod_inverse a m = .error .noInverse := by
  have hg : (extended_gcd (normInput a m) m).1 ≠ 1 := by
    rw [(extended_gcd_spec (normInput a m) m).1, normInput_gcd a m hm]
    exact h
  rw [mod_inverse_eq, if_pos (by simpa using hg)]

theorem mod_inverse_err_shape {a : Int} {m : Nat} {e : Err}
    (h : mod_inverse a m = .error e) : e = .noInverse := by
  rw [mod_inverse_eq] at h
  by_cases hg : (extended_gcd (normInput a m) m).1 ≠ 1
  · rw [if_pos hg] at h
    exact (Except.error.inj h).symm
  · rw [if_neg hg] at h
    exact absurd h (by simp)

theorem inverse_unique {m : Nat} (hm : 1 < m) {a r x : Int}
    (hr0 : 0 ≤ r) (hr1 : r < (m : Int)) (hr : (a * r) % (m : Int) = 1)
    (hx0 : 0 ≤ x) (hx1 : x < (m : Int)) (hx : (a * x) % (m : Int) = 1) : x = r := by
  have h1m : (1 : Int) % (m : Int) = 1 :=
    Int.emod_eq_of_lt (by norm_num) (by exact_mod_cast hm)
  have har : a * r ≡ 1 [ZMOD (m : Int)] := by unfold Int.ModEq; rw [hr, h1m]
  have hax : a * x ≡ 1 [ZMOD (m : Int)] := by unfold Int.ModEq; rw [hx, h1m]
  have key : x ≡ r [ZMOD (m : Int)] := by
    calc x = x * 1 := by ring
      _ ≡ x * (a * r) [ZMOD (m : Int)] := har.symm.mul_left x
      _ = (a * x) * r := by ring
      _ ≡ 1 * r [ZMOD (m : Int)] := hax.mul_right r
      _ = r := by ring
  have := key.eq
  rwa [Int.emod_eq_of_lt hx0 hx1, Int.emod_eq_of_lt hr0 hr1] at this

/-! ### Structure of `split_secret` on valid inputs -/

theorem randList_spec (p : Nat) (hp : 0 < p) :
    ∀ (cnt : Nat) (g : RNG),
      randList p cnt g =
        ((List.range cnt).map fun i => ((g.tape (g.pos + i) % p : Nat) : Int),
         ⟨g.tape, g.pos + cnt⟩) := by
  intro cnt
  induction cnt with
  | zero => intro g; simp [randList]
  | succ c ih =>
    intro g
    have hps : p - 1 - 0 + 1 = p := by omega
    simp only [randList, randint, ih ⟨g.tape, g.pos + 1⟩, hps,
      List.range_succ_eq_map, List.map_cons, List.map_map]
    refine congrArg₂ Prod.mk ?_ ?_
    · refine congrArg₂ List.cons (by norm_num) ?_
      apply List.map_congr_left
      intro i _
      have hidx : g.pos + 1 + i = g.pos + (i + 1) := by omega
      simp [Function.comp, hidx, Nat.succ_eq_add_one]
    · have : g.pos + 1 + c = g.pos + (c + 1) := by omega
      rw [this]

/-- The coefficient list the split loop builds for byte index `bi`: the
byte itself followed by the `k - 1` tape draws for that byte. -/
def coeffsFor (p k : Nat) (secret : List Nat) (g : RNG) (bi : Nat) : List Int :=
  (secret.getD bi 0 : Int) ::
    (List.range (k - 1)).map fun c => ((g.tape (g.pos + bi * (k - 1) + c) % p : Nat) : Int)

theorem coeffsFor_zero (p k : Nat) (hp : 0 < p) (b : Nat) (rest : List Nat) (g : RNG) :
    coeffsFor p k (b :: rest) g 0 = (b : Int) :: (randList p (k - 1) g).1 := by
  rw [randList_spec p hp]
  unfold coeffsFor
  simp

theorem coeffsFor_succ (p k : Nat) (b : Nat) (rest : List Nat) (g : RNG) (bi : Nat) :
    coeffsFor p k (b :: rest) g (bi + 1) =
      coeffsFor p k rest ⟨g.tape, g.pos + (k - 1)⟩ bi := by
  unfold coeffsFor
  simp only [List.getD_cons_succ]
  refine congrArg₂ List.cons rfl ?_
  apply List.map_congr_left
  intro c _
  have hidx : g.pos + (bi + 1) * (k - 1) + c = g.pos + (k - 1) + bi * (k - 1) + c := by
    ring
  rw [hidx]

theorem splitBytes_ok (p n k : Nat) (hp : 0 < p) :
    ∀ (secret : List Nat) (g : RNG), (∀ b ∈ secret, b < p) →
      splitBytes p n k secret g =
        (.ok ((List.range secret.length).map fun (bi : Nat) =>
          (List.range n).map fun (i : Nat) =>
            (((i : Int) + 1),
             evaluate_polynomial p (coeffsFor p k secret g bi) ((i : Int) + 1))),
         ⟨g.tape, g.pos + secret.length * (k - 1)⟩) := by
  intro secret
  induction secret with
  | nil =>
    intro g _
    simp [splitBytes]
  | cons b rest ih =>
    intro g hb
    have hbp : ¬ p ≤ b := not_le.mpr (hb b (List.mem_cons_self b rest))
    have hrest : ∀ x ∈ rest, x < p := fun x hx => hb x (List.mem_cons_of_mem b hx)
    simp only [splitBytes, if_neg hbp, randList_spec p hp (k - 1) g,
      ih ⟨g.tape, g.pos + (k - 1)⟩ hrest]
    refine congrArg₂ Prod.mk ?_ ?_
    · refine congrArg Except.ok ?_
      rw [List.length_cons, List.range_succ_eq_map, List.map_cons, List.map_map]
      refine congrArg₂ List.cons ?_ ?_
      · apply List.map_congr_left
        intro i _
        have hc : coeffsFor p k (b :: rest) g 0 = (b : Int) :: (randList p (k - 1) g).1 :=
          coeffsFor_zero p k hp b rest g
        rw [randList_spec p hp (k - 1) g] at hc
        rw [hc]
      · apply List.map_congr_left
        intro bi _
        have hc := coeffsFor_succ p k b rest g bi
        simp [Function.comp, Nat.succ_eq_add_one, hc]
    · have : g.pos + (k - 1) + rest.length * (k - 1) = g.pos + (rest.length + 1) * (k - 1) := by
        ring
      simp [this]

theorem getD_map_range {α : Type _} (f : Nat → α) (n i : Nat) (d : α) (h : i < n) :
    ((List.range n).map f).getD i d = f i := by
  rw [List.getD_eq_getElem?_getD, List.getElem?_map, List.getElem?_range h]
  rfl

theorem split_secret_ok (p : Nat) (secret : List Nat) (n k : Nat) (g : RNG)
    (hp : 0 < p) (hk2 : 2 ≤ k) (hkn : k ≤ n) (hb : ∀ b ∈ secret, b < p) :
    split_secret p secret n k g =
      (.ok ((List.range n).map fun (si : Nat) =>
        (List.range secret.length).map fun (bi : Nat) =>
          (((si : Int) + 1),
           evaluate_polynomial p (coeffsFor p k secret g bi) ((si : Int) + 1))),
       ⟨g.tape, g.pos + secret.length * (k - 1)⟩) := by
  have hcond : ¬ (k > n ∨ k < 2) := by omega
  simp only [split_secret, if_neg hcond, splitBytes_ok p n k hp secret g hb]
  refine congrArg₂ Prod.mk (congrArg Except.ok ?_) rfl
  apply List.map_congr_left
  intro si hsi
  apply List.map_congr_left
  intro bi hbi
  rw [getD_map_range _ _ _ _ (List.mem_range.mp hbi),
      getD_map_range _ _ _ _ (List.mem_range.mp hsi)]

theorem split_secret_invalid (p : Nat) (secret : List Nat) (n k : Nat) (g : RNG)
    (h : k > n ∨ k < 2) : split_secret p secret n k g = (.error .invalidParams, g) := by
  simp only [split_secret, if_pos h]

theorem splitBytes_err (p n k : Nat) :
    ∀ (secret : List Nat) (g : RNG) (e : Err) (g' : RNG),
      splitBytes p n k secret g = (.error e, g') →
      e = .byteTooLarge ∧ ∃ i, i < secret.length ∧ p ≤ secret.getD i 0 ∧
        (∀ z, z < i → secret.getD z 0 < p) ∧ g'.pos = g.pos + i * (k - 1) := by
  intro secret
  induction secret with
  | nil => intro g e g' h; simp [splitBytes] at h
  | cons b rest ih =>
    intro g e g' h
    by_cases hbp : p ≤ b
    · simp only [splitBytes, if_pos hbp, Prod.mk.injEq] at h
      refine ⟨(Except.error.inj h.1).symm, 0, by simp, by simpa using hbp,
        fun z hz => absurd hz (Nat.not_lt_zero z), ?_⟩
      rw [← h.2]
      simp
    · have hp : 0 < p := lt_of_le_of_lt (Nat.zero_le b) (not_le.mp hbp)
      simp only [splitBytes, if_neg hbp, randList_spec p hp (k - 1) g] at h
      rcases hrec : splitBytes p n k rest ⟨g.tape, g.pos + (k - 1)⟩ with ⟨res, g2⟩
      rw [hrec] at h
      cases res with
      | ok bs => simp at h
      | error e2 =>
        simp only [Prod.mk.injEq] at h
        obtain ⟨he, i, hi1, hi2, hi3, hi4⟩ := ih ⟨g.tape, g.pos + (k - 1)⟩ e2 g2 hrec
        have he' : e = Err.byteTooLarge := by
          rw [← Except.error.inj h.1, he]
        refine ⟨he', i + 1, by simpa using hi1, by simpa using hi2, ?_, ?_⟩
        · intro z hz
          cases z with
          | zero => simpa using not_le.mp hbp
          | succ z2 => simpa using hi3 z2 (by omega)
        · rw [← h.2, hi4]
          simp only []
          ring

/-! ### Reconstruction on duplicate x-coordinates -/

theorem getD_of_lt {α : Type _} (l : List α) (i : Nat) (d : α) (h : i < l.length) :
    l.getD i d = l.get ⟨i, h⟩ := by
  rw [List.getD_eq_getElem?_getD, List.getElem?_eq_getElem h]
  rfl

theorem getD_map_of_lt {α β : Type _} (f : α → β) (l : List α) (i : Nat) (d : β)
    (d0 : α) (h : i < l.length) : (l.map f).getD i d = f (l.getD i d0) := by
  rw [getD_of_lt (l.map f) i d (by simpa using h), getD_of_lt l i d0 h, List.get_map]

theorem mod_inverse_zero (m : Nat) (hm : 1 < m) : mod_inverse 0 m = .error .noInverse := by
  apply mod_inverse_err (lt_trans Nat.zero_lt_one hm)
  simp only [Int.zero_emod, Int.toNat_zero, Nat.gcd_zero_left]
  omega

theorem ndStep_snd_zero (p : Nat) (pts : List (Int × Int)) (j : Nat)
    (nd : Int × Int) (i : Nat) (h : nd.2 = 0) : (ndStep p pts j nd i).2 = 0 := by
  unfold ndStep
  by_cases hij : i ≠ j
  · rw [if_pos hij]
    simp [h]
  · rw [if_neg hij]
    exact h

theorem foldl_ndStep_snd_zero (p : Nat) (pts : List (Int × Int)) (j : Nat) :
    ∀ (l : List Nat) (nd : Int × Int), nd.2 = 0 →
      (l.foldl (ndStep p pts j) nd).2 = 0 := by
  intro l
  induction l with
  | nil => intro nd h; exact h
  | cons a t ih =>
    intro nd h
    exact ih (ndStep p pts j nd a) (ndStep_snd_zero p pts j nd a h)

theorem foldl_ndStep_hit_zero (p : Nat) (pts : List (Int × Int)) (j : Nat) :
    ∀ (l : List Nat) (nd : Int × Int),
      (∃ i ∈ l, i ≠ j ∧ (pts.getD j (0, 0)).1 - (pts.getD i (0, 0)).1 = 0) →
      (l.foldl (ndStep p pts j) nd).2 = 0 := by
  intro l
  induction l with
  | nil => intro nd h; simp at h
  | cons a t ih =>
    intro nd h
    obtain ⟨i, hmem, hij, hdiff⟩ := h
    rcases List.mem_cons.mp hmem with rfl | ht
    · rw [List.foldl_cons]
      apply foldl_ndStep_snd_zero
      unfold ndStep
      rw [if_pos hij, hdiff]
      simp
    · rw [List.foldl_cons]
      exact ih (ndStep p pts j nd a) ⟨i, ht, hij, hdiff⟩

theorem numden_snd_zero (p : Nat) (pts : List (Int × Int)) (a b : Nat)
    (hab : b ≠ a) (hb : b < pts.length)
    (hx : (pts.getD a (0, 0)).1 = (pts.getD b (0, 0)).1) :
    (numden p pts a).2 = 0 := by
  unfold numden
  apply foldl_ndStep_hit_zero
  exact ⟨b, List.mem_range.mpr hb, hab, by rw [hx, sub_self]⟩

theorem lagrangeStep_err_zero (p : Nat) (hp : 1 < p) (pts : List (Int × Int))
    (s : Int) (j : Nat) (h : (numden p pts j).2 = 0) :
    lagrangeStep p pts s j = .error .noInverse := by
  simp only [lagrangeStep, h, mod_inverse_zero p hp]

theorem lagrangeStep_shape (p : Nat) (pts : List (Int × Int)) (s : Int) (j : Nat) :
    (∃ v, lagrangeStep p pts s j = .ok v) ∨ lagrangeStep p pts s j = .error .noInverse := by
  rcases hmi : mod_inverse (numden p pts j).2 p with e | v
  · right
    have he := mod_inverse_err_shape hmi
    simp only [lagrangeStep, hmi, he]
  · left
    refine ⟨(s + (pts.getD j (0, 0)).2 * ((numden p pts j).1 * v % (p : Int))) % (p : Int), ?_⟩
    simp only [lagrangeStep, hmi]

theorem lagrangeFold_err (p : Nat) (hp : 1 < p) (pts : List (Int × Int)) :
    ∀ (l : List Nat) (s : Int) (j0 : Nat), j0 ∈ l → (numden p pts j0).2 = 0 →
      lagrangeFold p pts s l = .error .noInverse := by
  intro l
  induction l with
  | nil => intro s j0 h; simp at h
  | cons a t ih =>
    intro s j0 hmem hz
    rcases List.mem_cons.mp hmem with rfl | ht
    · unfold lagrangeFold
      rw [lagrangeStep_err_zero p hp pts s j0 hz]
    · unfold lagrangeFold
      rcases lagrangeStep_shape p pts s a with ⟨v, hv⟩ | he
      · rw [hv]
        exact ih v j0 ht hz
      · rw [he]

theorem lagrangeFold_shape (p : Nat) (pts : List (Int × Int)) :
    ∀ (l : List Nat) (s : Int),
      (∃ v, lagrangeFold p pts s l = .ok v) ∨
        lagrangeFold p pts s l = .error .noInverse := by
  intro l
  induction l with
  | nil => intro s; exact Or.inl ⟨s, rfl⟩
  | cons a t ih =>
    intro s
    unfold lagrangeFold
    rcases lagrangeStep_shape p pts s a with ⟨v, hv⟩ | he
    · rw [hv]
      exact ih v
    · right
      rw [he]

theorem getPoints_ok : ∀ (shares : List (List (Int × Int))) (bi : Nat),
    (∀ s ∈ shares, bi < s.length) →
    getPoints shares bi = .ok (shares.map fun s => s.getD bi (0, 0)) := by
  intro shares
  induction shares with
  | nil => intro bi _; rfl
  | cons s rest ih =>
    intro bi h
    have hs : bi < s.length := h s (List.mem_cons_self s rest)
    unfold getPoints
    rw [dif_pos hs, ih bi fun t ht => h t (List.mem_cons_of_mem s ht)]
    rw [List.map_cons]
    rw [getD_of_lt s bi (0, 0) hs]

theorem lagrangeAtZero_shape (p : Nat) (pts : List (Int × Int)) :
    (∃ v, lagrangeAtZero p pts = .ok v) ∨ lagrangeAtZero p pts = .error .noInverse :=
  lagrangeFold_shape p pts (List.range pts.length) 0

theorem lagrangeAtZero_err (p : Nat) (hp : 1 < p) (pts : List (Int × Int)) (j0 : Nat)
    (hj : j0 < pts.length) (hz : (numden p pts j0).2 = 0) :
    lagrangeAtZero p pts = .error .noInverse :=
  lagrangeFold_err p hp pts (List.range pts.length) 0 j0 (List.mem_range.mpr hj) hz

theorem reconstructBytes_err (p : Nat) (hp : 1 < p) (shares : List (List (Int × Int))) :
    ∀ (l : List Nat), (∀ s ∈ shares, ∀ bi ∈ l, bi < s.length) →
      ∀ bi0 ∈ l,
        lagrangeAtZero p (shares.map fun s => s.getD bi0 (0, 0)) = .error .noInverse →
        reconstructBytes p shares l = .error .noInverse := by
  intro l
  induction l with
  | nil => intro _ bi0 h; simp at h
  | cons a t ih =>
    intro hlen bi0 hmem hbad
    have hga : getPoints shares a = .ok (shares.map fun s => s.getD a (0, 0)) :=
      getPoints_ok shares a fun s hs => hlen s hs a (List.mem_cons_self a t)
    rcases List.mem_cons.mp hmem with rfl | ht
    · simp only [reconstructBytes, hga, hbad]
    · rcases lagrangeAtZero_shape p (shares.map fun s => s.getD a (0, 0)) with ⟨v, hv⟩ | he
      · have hrec := ih (fun s hs bi hbi => hlen s hs bi (List.mem_cons_of_mem a hbi)) bi0 ht hbad
        simp only [reconstructBytes, hga, hv, hrec]
      · simp only [reconstructBytes, hga, he]

/-! ### Reconstruction reads only the first `len(shares[0])` points -/

theorem getPoints_take (L : Nat) :
    ∀ (shares : List (List (Int × Int))) (bi : Nat), bi < L →
      getPoints (shares.map fun s => s.take L) bi = getPoints shares bi := by
  intro shares
  induction shares with
  | nil => intro bi _; rfl
  | cons s rest ih =>
    intro bi hbi
    rw [List.map_cons]
    by_cases hb : bi < s.length
    · have hb' : bi < (s.take L).length := by
        rw [List.length_take]
        omega
      unfold getPoints
      rw [dif_pos hb', dif_pos hb, ih bi hbi]
      have hval : (s.take L).get ⟨bi, hb'⟩ = s.get ⟨bi, hb⟩ := List.getElem_take s
      rw [hval]
    · have hb' : ¬ bi < (s.take L).length := by
        rw [List.length_take]
        omega
      unfold getPoints
      rw [dif_neg hb', dif_neg hb]

theorem reconstructBytes_take (p L : Nat) (shares : List (List (Int × Int))) :
    ∀ (l : List Nat), (∀ bi ∈ l, bi < L) →
      reconstructBytes p (shares.map fun s => s.take L) l =
        reconstructBytes p shares l := by
  intro l
  induction l with
  | nil => intro _; rfl
  | cons a t ih =>
    intro hl
    have hga := getPoints_take L shares a (hl a (List.mem_cons_self a t))
    have hrec := ih fun bi hbi => hl bi (List.mem_cons_of_mem a hbi)
    simp only [reconstructBytes, hga, hrec]

theorem reconstruct_take (p : Nat) (shares : List (List (Int × Int))) :
    reconstruct_secret p shares =
      reconstruct_secret p (shares.map fun s => s.take (shares.headD []).length) := by
  cases shares with
  | nil => rfl
  | cons s0 rest =>
    have hL : ((s0 :: rest).headD []) = s0 := rfl
    rw [hL]
    have he1 : (s0 :: rest).isEmpty = false := rfl
    have he2 : ((s0 :: rest).map fun s => s.take s0.length).isEmpty = false := rfl
    have hhead : ((s0 :: rest).map fun s => s.take s0.length).headD [] =
        s0.take s0.length := rfl
    simp only [reconstruct_secret, he1, he2, hhead, Bool.false_eq_true, if_false,
      List.take_length]
    exact (reconstructBytes_take p s0.length (s0 :: rest) (List.range s0.length)
      fun bi hbi => List.mem_range.mp hbi).symm

/-! ### Interpolation: casting the modular computations into `ZMod` -/

theorem castEmod (m : Nat) (a : Int) :
    (((a % (m : Int)) : Int) : ZMod m) = (a : ZMod m) := by
  conv_rhs => rw [← Int.emod_add_ediv a (m : Int)]
  push_cast
  rw [ZMod.natCast_self]
  ring

/-- Verification-side view of a coefficient list as a polynomial over
`ZMod m`, constant term first (matching the source's coefficient order). -/
noncomputable def polyOf (m : Nat) (coeffs : List Int) : Polynomial (ZMod m) :=
  coeffs.foldr (fun c q => Polynomial.C ((c : Int) : ZMod m) + Polynomial.X * q) 0

theorem polyOf_nil (m : Nat) : polyOf m [] = 0 := rfl

theorem polyOf_cons (m : Nat) (c : Int) (cs : List Int) :
    polyOf m (c :: cs) = Polynomial.C ((c : Int) : ZMod m) + Polynomial.X * polyOf m cs := rfl

theorem polyOf_degree (m : Nat) [Nontrivial (ZMod m)] :
    ∀ coeffs : List Int, (polyOf m coeffs).degree < ((coeffs.length : Nat) : WithBot Nat) := by
  intro coeffs
  induction coeffs with
  | nil =>
    rw [polyOf_nil, Polynomial.degree_zero]
    exact WithBot.bot_lt_coe 0
  | cons c cs ih =>
    rw [polyOf_cons]
    have hlen : (((c :: cs).length : Nat) : WithBot Nat) = ((cs.length + 1 : Nat) : WithBot Nat) := by
      simp
    rw [hlen]
    apply lt_of_le_of_lt (Polynomial.degree_add_le _ _)
    rw [max_lt_iff]
    constructor
    · apply lt_of_le_of_lt Polynomial.degree_C_le
      exact_mod_cast Nat.succ_pos cs.length
    · apply lt_of_le_of_lt (Polynomial.degree_mul_le _ _)
      rw [Polynomial.degree_X]
      have key : ((cs.length + 1 : Nat) : WithBot Nat) =
          (1 : WithBot Nat) + (cs.length : WithBot Nat) := by
        norm_cast
        omega
      rw [key]
      exact WithBot.add_lt_add_left (by simp) ih

theorem polyOf_eval_zero (m : Nat) (c : Int) (cs : List Int) :
    (polyOf m (c :: cs)).eval 0 = ((c : Int) : ZMod m) := by
  rw [polyOf_cons]
  simp

theorem evaluate_polynomial_cast (m : Nat) (coeffs : List Int) (x : Int) :
    ((evaluate_polynomial m coeffs x : Int) : ZMod m) =
      (polyOf m coeffs).eval ((x : Int) : ZMod m) := by
  unfold evaluate_polynomial
  rw [List.foldl_reverse]
  induction coeffs with
  | nil =>
    rw [polyOf_nil]
    simp
  | cons c cs ih =>
    rw [List.foldr_cons, castEmod]
    push_cast
    rw [ih, polyOf_cons]
    simp
    ring

/-! ### Interpolation: a polynomial with enough unit-difference roots is 0 -/

theorem eval_zero_of_roots {R : Type} [CommRing R] [Nontrivial R] :
    ∀ (xs : List R) (f : Polynomial R),
      f.degree < ((xs.length : Nat) : WithBot Nat) →
      (∀ z ∈ xs, f.IsRoot z) →
      xs.Pairwise (fun a b => IsUnit (a - b)) →
      f = 0 := by
  intro xs
  induction xs with
  | nil =>
    intro f hdeg _ _
    by_contra hf
    rw [Polynomial.degree_eq_natDegree hf] at hdeg
    have : f.natDegree < 0 := by exact_mod_cast hdeg
    omega
  | cons x0 xs ih =>
    intro f hdeg hroots hpw
    obtain ⟨g, hg⟩ :=
      Polynomial.dvd_iff_isRoot.mpr (hroots x0 (List.mem_cons_self x0 xs))
    by_cases hg0 : g = 0
    · rw [hg, hg0, mul_zero]
    · have hdegf : f.degree = g.degree + 1 := by
        rw [hg, mul_comm, (Polynomial.monic_X_sub_C x0).degree_mul,
          Polynomial.degree_X_sub_C]
      have hdg : g.degree < ((xs.length : Nat) : WithBot Nat) := by
        rw [Polynomial.degree_eq_natDegree hg0] at hdegf ⊢
        rw [hdegf] at hdeg
        have h1 : ((g.natDegree : WithBot Nat) + 1) = ((g.natDegree + 1 : Nat) : WithBot Nat) := by
          push_cast
          rfl
        rw [h1] at hdeg
        have h2 : g.natDegree + 1 < xs.length + 1 := by
          have hlen : ((x0 :: xs).length : Nat) = xs.length + 1 := by simp
          rw [hlen] at hdeg
          exact_mod_cast hdeg
        exact_mod_cast by omega
      have hroots2 : ∀ z ∈ xs, g.IsRoot z := by
        intro z hz
        have hfz := hroots z (List.mem_cons_of_mem x0 hz)
        rw [hg] at hfz
        have hu : IsUnit (x0 - z) := (List.pairwise_cons.mp hpw).1 z hz
        have hu2 : IsUnit (z - x0) := by
          have hn := hu.neg
          rwa [neg_sub] at hn
        unfold Polynomial.IsRoot at hfz ⊢
        rw [Polynomial.eval_mul, Polynomial.eval_sub, Polynomial.eval_X,
          Polynomial.eval_C] at hfz
        exact hu2.mul_right_eq_zero.mp hfz
      have hgz := ih g hdg hroots2 (List.pairwise_cons.mp hpw).2
      exact absurd hgz hg0

theorem lagrange_sum_eval_zero {R : Type} [CommRing R] [Nontrivial R] (t : Nat)
    (x y u : Nat → R) (f : Polynomial R)
    (hdeg : f.degree < ((t : Nat) : WithBot Nat))
    (hy : ∀ j, j < t → y j = f.eval (x j))
    (hunit : ∀ i j, i < t → j < t → i ≠ j → IsUnit (x i - x j))
    (hu : ∀ j, j < t → (∏ i in (Finset.range t).erase j, (x j - x i)) * u j = 1) :
    ∑ j in Finset.range t, y j * ((∏ i in (Finset.range t).erase j, (0 - x i)) * u j) =
      f.eval 0 := by
  classical
  rcases Nat.eq_zero_or_pos t with rfl | ht
  · have hf : f = 0 := eval_zero_of_roots [] f (by simpa using hdeg) (by simp) (by simp)
    simp [hf]
  · set Q : Polynomial R := ∑ j in Finset.range t,
      Polynomial.C (y j * u j) *
        ∏ i in (Finset.range t).erase j, (Polynomial.X - Polynomial.C (x i)) with hQ
    have hQeval : ∀ z : R, Q.eval z = ∑ j in Finset.range t,
        (y j * u j) * ∏ i in (Finset.range t).erase j, (z - x i) := by
      intro z
      rw [hQ, Polynomial.eval_finset_sum]
      apply Finset.sum_congr rfl
      intro j hj
      rw [Polynomial.eval_mul, Polynomial.eval_C, Polynomial.eval_prod]
      congr 1
      apply Finset.prod_congr rfl
      intro i hi
      rw [Polynomial.eval_sub, Polynomial.eval_X, Polynomial.eval_C]
    have hQnode : ∀ w, w < t → Q.eval (x w) = y w := by
      intro w hw
      rw [hQeval]
      rw [Finset.sum_eq_single_of_mem w (Finset.mem_range.mpr hw)]
      · calc (y w * u w) * ∏ i in (Finset.range t).erase w, (x w - x i)
            = y w * ((∏ i in (Finset.range t).erase w, (x w - x i)) * u w) := by ring
          _ = y w * 1 := by rw [hu w hw]
          _ = y w := mul_one _
      · intro j hj hne
        have hwmem : w ∈ (Finset.range t).erase j :=
          Finset.mem_erase.mpr ⟨fun hwj => hne (hwj ▸ rfl), Finset.mem_range.mpr hw⟩
        rw [Finset.prod_eq_zero hwmem (by rw [sub_self]), mul_zero]
    have hQdeg : Q.degree < ((t : Nat) : WithBot Nat) := by
      rw [hQ]
      apply lt_of_le_of_lt (Polynomial.degree_sum_le _ _)
      apply (Finset.sup_lt_iff (WithBot.bot_lt_coe t)).mpr
      intro j hj
      apply lt_of_le_of_lt (Polynomial.degree_mul_le _ _)
      have h2 : (∏ i in (Finset.range t).erase j,
          (Polynomial.X - Polynomial.C (x i))).degree ≤ ((t - 1 : Nat) : WithBot Nat) := by
        apply le_trans Polynomial.degree_le_natDegree
        have hmon : ∀ i ∈ (Finset.range t).erase j,
            (Polynomial.X - Polynomial.C (x i)).Monic :=
          fun i _ => Polynomial.monic_X_sub_C (x i)
        rw [Polynomial.natDegree_prod_of_monic _ _ hmon]
        have hsum : ∑ i in (Finset.range t).erase j,
            (Polynomial.X - Polynomial.C (x i)).natDegree = t - 1 := by
          have hone : ∀ i ∈ (Finset.range t).erase j,
              (Polynomial.X - Polynomial.C (x i)).natDegree = 1 :=
            fun i _ => Polynomial.natDegree_X_sub_C (x i)
          rw [Finset.sum_congr rfl hone, Finset.sum_const, smul_eq_mul, mul_one,
            Finset.card_erase_of_mem hj, Finset.card_range]
        rw [hsum]
      have h3 : (Polynomial.C (y j * u j)).degree +
          (∏ i in (Finset.range t).erase j,
            (Polynomial.X - Polynomial.C (x i))).degree ≤
          (0 : WithBot Nat) + ((t - 1 : Nat) : WithBot Nat) :=
        add_le_add Polynomial.degree_C_le h2
      apply lt_of_le_of_lt h3
      rw [zero_add]
      have h4 : (t - 1 : Nat) < t := by omega
      exact WithBot.coe_lt_coe.mpr h4
    have hfq : f - Q = 0 := by
      apply eval_zero_of_roots ((List.range t).map x)
      · rw [List.length_map, List.length_range]
        apply lt_of_le_of_lt (Polynomial.degree_sub_le f Q)
        exact max_lt hdeg hQdeg
      · intro z hz
        obtain ⟨w, hw, rfl⟩ := List.mem_map.mp hz
        unfold Polynomial.IsRoot
        rw [Polynomial.eval_sub, hQnode w (List.mem_range.mp hw),
          hy w (List.mem_range.mp hw), sub_self]
      · rw [List.pairwise_map]
        apply List.Pairwise.imp_of_mem ?_ (List.pairwise_lt_range t)
        intro a b ha hb hlt
        exact hunit a b (List.mem_range.mp ha) (List.mem_range.mp hb) (Nat.ne_of_lt hlt)
    have hfQ : f = Q := sub_eq_zero.mp hfq
    rw [hfQ, hQeval 0]
    apply Finset.sum_congr rfl
    intro j hj
    ring

/-! ### Interpolation: the inner loop computes the basis products -/

theorem numden_fold_cast (p : Nat) (pts : List (Int × Int)) (j : Nat) :
    ∀ t : Nat,
      ((((List.range t).foldl (ndStep p pts j) (1, 1)).1 : Int) : ZMod p) =
        (∏ i in (Finset.range t).erase j, (0 - (((pts.getD i (0, 0)).1 : Int) : ZMod p))) ∧
      ((((List.range t).foldl (ndStep p pts j) (1, 1)).2 : Int) : ZMod p) =
        (∏ i in (Finset.range t).erase j,
          ((((pts.getD j (0, 0)).1 : Int) : ZMod p) -
            (((pts.getD i (0, 0)).1 : Int) : ZMod p))) := by
  intro t
  induction t with
  | zero => simp
  | succ t ih =>
    rw [List.range_succ, List.foldl_append, List.foldl_cons, List.foldl_nil]
    by_cases hjt : t = j
    · subst hjt
      have hid : ndStep p pts t ((List.range t).foldl (ndStep p pts t) (1, 1)) t =
          (List.range t).foldl (ndStep p pts t) (1, 1) := by
        unfold ndStep
        rw [if_neg (by simp)]
      rw [hid, Finset.range_succ, Finset.erase_insert Finset.not_mem_range_self]
      rw [Finset.erase_eq_of_not_mem Finset.not_mem_range_self] at ih
      exact ih
    · have hstep : ndStep p pts j ((List.range t).foldl (ndStep p pts j) (1, 1)) t =
          ((((List.range t).foldl (ndStep p pts j) (1, 1)).1 *
              (0 - (pts.getD t (0, 0)).1)) % (p : Int),
           (((List.range t).foldl (ndStep p pts j) (1, 1)).2 *
              ((pts.getD j (0, 0)).1 - (pts.getD t (0, 0)).1)) % (p : Int)) := by
        unfold ndStep
        rw [if_pos hjt]
      rw [hstep, Finset.range_succ, Finset.erase_insert_of_ne hjt]
      have hnm : t ∉ (Finset.range t).erase j :=
        fun hmem => Finset.not_mem_range_self (Finset.mem_of_mem_erase hmem)
      constructor
      · show (((((List.range t).foldl (ndStep p pts j) (1, 1)).1 *
            (0 - (pts.getD t (0, 0)).1)) % (p : Int) : Int) : ZMod p) = _
        rw [castEmod, Finset.prod_insert hnm]
        push_cast
        rw [ih.1]
        ring
      · show (((((List.range t).foldl (ndStep p pts j) (1, 1)).2 *
            ((pts.getD j (0, 0)).1 - (pts.getD t (0, 0)).1)) % (p : Int) : Int) : ZMod p) = _
        rw [castEmod, Finset.prod_insert hnm]
        push_cast
        rw [ih.2]
        ring

theorem numden_cast (p : Nat) (pts : List (Int × Int)) (j : Nat) :
    (((numden p pts j).1 : Int) : ZMod p) =
      (∏ i in (Finset.range pts.length).erase j,
        (0 - (((pts.getD i (0, 0)).1 : Int) : ZMod p))) ∧
    (((numden p pts j).2 : Int) : ZMod p) =
      (∏ i in (Finset.range pts.length).erase j,
        ((((pts.getD j (0, 0)).1 : Int) : ZMod p) -
          (((pts.getD i (0, 0)).1 : Int) : ZMod p))) :=
  numden_fold_cast p pts j pts.length

theorem numden_fold_bounds (p : Nat) (hp : 1 < p) (pts : List (Int × Int)) (j : Nat) :
    ∀ t : Nat,
      (0 ≤ (((List.range t).foldl (ndStep p pts j) (1, 1)).1 : Int) ∧
        (((List.range t).foldl (ndStep p pts j) (1, 1)).1 : Int) < (p : Int)) ∧
      (0 ≤ (((List.range t).foldl (ndStep p pts j) (1, 1)).2 : Int) ∧
        (((List.range t).foldl (ndStep p pts j) (1, 1)).2 : Int) < (p : Int)) := by
  have hp0 : ((p : Int)) ≠ 0 := by exact_mod_cast Nat.pos_iff_ne_zero.mp (by omega)
  have hpz : (0 : Int) < (p : Int) := by exact_mod_cast by omega
  intro t
  induction t with
  | zero =>
    rw [List.range_zero, List.foldl_nil]
    refine ⟨⟨by norm_num, ?_⟩, ⟨by norm_num, ?_⟩⟩ <;>
      · show (1 : Int) < (p : Int)
        exact_mod_cast hp
  | succ t ih =>
    rw [List.range_succ, List.foldl_append, List.foldl_cons, List.foldl_nil]
    unfold ndStep
    by_cases hjt : t ≠ j
    · rw [if_pos hjt]
      exact ⟨⟨Int.emod_nonneg _ hp0, Int.emod_lt_of_pos _ hpz⟩,
        ⟨Int.emod_nonneg _ hp0, Int.emod_lt_of_pos _ hpz⟩⟩
    · rw [if_neg hjt]
      exact ih

/-- The modular inverse the code computes for point `j`'s denominator (0
when the inverse does not exist; only used where it does). -/
def rInv (p : Nat) (pts : List (Int × Int)) (j : Nat) : Int :=
  match mod_inverse (numden p pts j).2 p with
  | .ok v => v
  | .error _ => 0

/-- The accumulator value of the outer Lagrange loop after `t` successful
iterations. -/
def sFold (p : Nat) (pts : List (Int × Int)) (t : Nat) : Int :=
  (List.range t).foldl
    (fun s j =>
      (s + (pts.getD j (0, 0)).2 *
        (((numden p pts j).1 * rInv p pts j) % (p : Int))) % (p : Int)) 0

theorem lagrangeFold_append (p : Nat) (pts : List (Int × Int)) :
    ∀ (l1 l2 : List Nat) (s : Int),
      lagrangeFold p pts s (l1 ++ l2) =
        match lagrangeFold p pts s l1 with
        | .ok v => lagrangeFold p pts v l2
        | .error e => .error e := by
  intro l1
  induction l1 with
  | nil => intro l2 s; rfl
  | cons a t ih =>
    intro l2 s
    rw [List.cons_append]
    show (match lagrangeStep p pts s a with
      | Except.error e => (Except.error e : Except Err Int)
      | Except.ok s2 => lagrangeFold p pts s2 (t ++ l2)) =
      (match lagrangeFold p pts s (a :: t) with
      | Except.ok v => lagrangeFold p pts v l2
      | Except.error e => (Except.error e : Except Err Int))
    rcases h : lagrangeStep p pts s a with e | v
    · simp only [lagrangeFold, h]
    · simp only [lagrangeFold, h, ih l2 v]

theorem lagrangeFold_range_ok (p : Nat) (pts : List (Int × Int)) :
    ∀ t : Nat, (∀ j, j < t → mod_inverse (numden p pts j).2 p = .ok (rInv p pts j)) →
      lagrangeFold p pts 0 (List.range t) = .ok (sFold p pts t) := by
  intro t
  induction t with
  | zero => intro _; rfl
  | succ t ih =>
    intro h
    rw [List.range_succ, lagrangeFold_append, ih fun j hj => h j (by omega)]
    have hstep : lagrangeStep p pts (sFold p pts t) t =
        .ok ((sFold p pts t + (pts.getD t (0, 0)).2 *
          (((numden p pts t).1 * rInv p pts t) % (p : Int))) % (p : Int)) := by
      simp only [lagrangeStep, h t (by omega)]
    show (match lagrangeStep p pts (sFold p pts t) t with
      | Except.error e => (Except.error e : Except Err Int)
      | Except.ok s2 => lagrangeFold p pts s2 []) = Except.ok (sFold p pts (t + 1))
    rw [hstep]
    have hs : sFold p pts (t + 1) =
        (sFold p pts t + (pts.getD t (0, 0)).2 *
          (((numden p pts t).1 * rInv p pts t) % (p : Int))) % (p : Int) := by
      unfold sFold
      rw [List.range_succ, List.foldl_append, List.foldl_cons, List.foldl_nil]
    rw [hs]
    rfl

theorem sFold_bounds (p : Nat) (hp : 0 < p) (pts : List (Int × Int)) :
    ∀ t : Nat, 0 ≤ sFold p pts t ∧ sFold p pts t < (p : Int) := by
  have hp0 : ((p : Int)) ≠ 0 := by exact_mod_cast Nat.pos_iff_ne_zero.mp hp
  have hpz : (0 : Int) < (p : Int) := by exact_mod_cast hp
  intro t
  cases t with
  | zero => exact ⟨le_refl 0, hpz⟩
  | succ t =>
    have hs : sFold p pts (t + 1) =
        (sFold p pts t + (pts.getD t (0, 0)).2 *
          (((numden p pts t).1 * rInv p pts t) % (p : Int))) % (p : Int) := by
      unfold sFold
      rw [List.range_succ, List.foldl_append, List.foldl_cons, List.foldl_nil]
    rw [hs]
    exact ⟨Int.emod_nonneg _ hp0, Int.emod_lt_of_pos _ hpz⟩

theorem sFold_cast (p : Nat) (pts : List (Int × Int)) :
    ∀ t : Nat, ((sFold p pts t : Int) : ZMod p) =
      ∑ j in Finset.range t, (((pts.getD j (0, 0)).2 : Int) : ZMod p) *
        ((((numden p pts j).1 : Int) : ZMod p) * ((rInv p pts j : Int) : ZMod p)) := by
  intro t
  induction t with
  | zero => simp [sFold]
  | succ t ih =>
    have hs : sFold p pts (t + 1) =
        (sFold p pts t + (pts.getD t (0, 0)).2 *
          (((numden p pts t).1 * rInv p pts t) % (p : Int))) % (p : Int) := by
      unfold sFold
      rw [List.range_succ, List.foldl_append, List.foldl_cons, List.foldl_nil]
    rw [hs, castEmod, Finset.sum_range_succ, ← ih]
    push_cast [castEmod]
    ring

/-! ### Interpolation: units modulo the default modulus -/

theorem isUnit_finset_prod {R : Type} [CommRing R] (s : Finset Nat) (f : Nat → R)
    (h : ∀ i ∈ s, IsUnit (f i)) : IsUnit (∏ i in s, f i) := by
  classical
  induction s using Finset.induction_on with
  | empty => simp
  | insert hni ih =>
    rename_i a t
    rw [Finset.prod_insert hni]
    exact (h a (Finset.mem_insert_self a t)).mul
      (ih fun i hi => h i (Finset.mem_insert_of_mem hi))

theorem coprime_small_default : ∀ d ∈ Finset.Icc 1 60, Nat.Coprime d DEFAULT_PRIME := by
  decide

theorem isUnit_small_diff (d : Int) (hd0 : d ≠ 0) (hdle : d.natAbs ≤ 60) :
    IsUnit ((d : Int) : ZMod DEFAULT_PRIME) := by
  haveI : NeZero DEFAULT_PRIME := ⟨by decide⟩
  have hco : Nat.Coprime d.natAbs DEFAULT_PRIME :=
    coprime_small_default d.natAbs (Finset.mem_Icc.mpr ⟨Int.natAbs_pos.mpr hd0, hdle⟩)
  have hu : IsUnit ((d.natAbs : Nat) : ZMod DEFAULT_PRIME) :=
    (ZMod.isUnit_iff_coprime d.natAbs DEFAULT_PRIME).mpr hco
  rcases Int.natAbs_eq d with h | h
  · rw [h, Int.cast_natCast]
    exact hu
  · rw [h, Int.cast_neg, Int.cast_natCast]
    exact hu.neg

/-! ### Interpolation: one byte reconstructs exactly -/

theorem den_inverse_ok (pts : List (Int × Int)) (t : Nat) (xv : Nat → Nat)
    (ht : pts.length = t)
    (hfst : ∀ j, j < t → (pts.getD j (0, 0)).1 = ((xv j : Nat) : Int))
    (hxlo : ∀ j, j < t → 1 ≤ xv j) (hxhi : ∀ j, j < t → xv j ≤ 61)
    (hxinj : ∀ i j, i < t → j < t → i ≠ j → xv i ≠ xv j) (j : Nat) (hj : j < t) :
    mod_inverse (numden DEFAULT_PRIME pts j).2 DEFAULT_PRIME =
      .ok (rInv DEFAULT_PRIME pts j) ∧
    (((numden DEFAULT_PRIME pts j).2 : Int) : ZMod DEFAULT_PRIME) *
      ((rInv DEFAULT_PRIME pts j : Int) : ZMod DEFAULT_PRIME) = 1 := by
  haveI : NeZero DEFAULT_PRIME := ⟨by decide⟩
  have hcast := (numden_cast DEFAULT_PRIME pts j).2
  rw [ht] at hcast
  have hu : IsUnit (((numden DEFAULT_PRIME pts j).2 : Int) : ZMod DEFAULT_PRIME) := by
    rw [hcast]
    apply isUnit_finset_prod
    intro i hi
    have hi2 : i < t := Finset.mem_range.mp (Finset.mem_of_mem_erase hi)
    have hij : i ≠ j := Finset.ne_of_mem_erase hi
    rw [hfst i hi2, hfst j hj, ← Int.cast_sub]
    apply isUnit_small_diff
    · have := hxinj j i hj hi2 (Ne.symm hij)
      omega
    · have h1 := hxlo j hj
      have h2 := hxhi j hj
      have h3 := hxlo i hi2
      have h4 := hxhi i hi2
      omega
  have hbd : 0 ≤ ((numden DEFAULT_PRIME pts j).2 : Int) ∧
      ((numden DEFAULT_PRIME pts j).2 : Int) < ((DEFAULT_PRIME : Nat) : Int) :=
    (numden_fold_bounds DEFAULT_PRIME (by decide) pts j pts.length).2
  have hgcd : Nat.gcd (((numden DEFAULT_PRIME pts j).2 %
      ((DEFAULT_PRIME : Nat) : Int)).toNat) DEFAULT_PRIME = 1 := by
    rw [Int.emod_eq_of_lt hbd.1 hbd.2]
    have h2 : (((numden DEFAULT_PRIME pts j).2.toNat : Nat) : Int) =
        (numden DEFAULT_PRIME pts j).2 := Int.toNat_of_nonneg hbd.1
    have hcoe : (((numden DEFAULT_PRIME pts j).2.toNat : Nat) : ZMod DEFAULT_PRIME) =
        (((numden DEFAULT_PRIME pts j).2 : Int) : ZMod DEFAULT_PRIME) := by
      conv_rhs => rw [← h2, Int.cast_natCast]
    exact (ZMod.isUnit_iff_coprime _ DEFAULT_PRIME).mp (by rw [hcoe]; exact hu)
  obtain ⟨r, hok, hr0, hr1, hinv⟩ :=
    mod_inverse_ok (by decide : (1 : Nat) < DEFAULT_PRIME) hgcd
  have hr : rInv DEFAULT_PRIME pts j = r := by
    unfold rInv
    rw [hok]
  refine ⟨by rw [hr]; exact hok, ?_⟩
  rw [hr]
  have h1 := congrArg (fun z : Int => ((z : Int) : ZMod DEFAULT_PRIME)) hinv
  simp only at h1
  rw [castEmod] at h1
  push_cast at h1
  exact h1

theorem lagrangeAtZero_ok_byte (pts : List (Int × Int)) (b : Nat) (ctail : List Int)
    (xv : Nat → Nat) (t : Nat)
    (hb : b < 256) (ht : pts.length = t) (hlen : ctail.length + 1 = t)
    (hpts : ∀ j, j < t → pts.getD j (0, 0) =
      (((xv j : Nat) : Int),
       evaluate_polynomial DEFAULT_PRIME ((b : Int) :: ctail) ((xv j : Nat) : Int)))
    (hxlo : ∀ j, j < t → 1 ≤ xv j) (hxhi : ∀ j, j < t → xv j ≤ 61)
    (hxinj : ∀ i j, i < t → j < t → i ≠ j → xv i ≠ xv j) :
    lagrangeAtZero DEFAULT_PRIME pts = .ok ((b : Nat) : Int) := by
  haveI : Fact (1 < DEFAULT_PRIME) := ⟨by decide⟩
  haveI : NeZero DEFAULT_PRIME := ⟨by decide⟩
  have hfst : ∀ j, j < t → (pts.getD j (0, 0)).1 = ((xv j : Nat) : Int) := by
    intro j hj
    rw [hpts j hj]
  have hden := fun j hj => den_inverse_ok pts t xv ht hfst hxlo hxhi hxinj j hj
  have hfold : lagrangeAtZero DEFAULT_PRIME pts = .ok (sFold DEFAULT_PRIME pts t) := by
    unfold lagrangeAtZero
    rw [ht]
    exact lagrangeFold_range_ok DEFAULT_PRIME pts t fun j hj => (hden j hj).1
  have hdeg : (polyOf DEFAULT_PRIME ((b : Int) :: ctail)).degree <
      ((t : Nat) : WithBot Nat) := by
    have h1 := polyOf_degree DEFAULT_PRIME ((b : Int) :: ctail)
    have h2 : (((b : Int) :: ctail).length : Nat) = t := by
      rw [List.length_cons, hlen]
    rw [h2] at h1
    exact h1
  have hy : ∀ j, j < t →
      (((pts.getD j (0, 0)).2 : Int) : ZMod DEFAULT_PRIME) =
        (polyOf DEFAULT_PRIME ((b : Int) :: ctail)).eval
          ((((pts.getD j (0, 0)).1 : Int) : ZMod DEFAULT_PRIME)) := by
    intro j hj
    rw [hfst j hj]
    have h1 : (pts.getD j (0, 0)).2 =
        evaluate_polynomial DEFAULT_PRIME ((b : Int) :: ctail) ((xv j : Nat) : Int) := by
      rw [hpts j hj]
    rw [h1, evaluate_polynomial_cast]
  have hunit : ∀ i j, i < t → j < t → i ≠ j →
      IsUnit ((((pts.getD i (0, 0)).1 : Int) : ZMod DEFAULT_PRIME) -
        (((pts.getD j (0, 0)).1 : Int) : ZMod DEFAULT_PRIME)) := by
    intro i j hi hj hij
    rw [hfst i hi, hfst j hj, ← Int.cast_sub]
    apply isUnit_small_diff
    · have := hxinj i j hi hj hij
      omega
    · have h1 := hxlo j hj
      have h2 := hxhi j hj
      have h3 := hxlo i hi
      have h4 := hxhi i hi
      omega
  have hu : ∀ j, j < t →
      (∏ i in (Finset.range t).erase j,
        ((((pts.getD j (0, 0)).1 : Int) : ZMod DEFAULT_PRIME) -
          (((pts.getD i (0, 0)).1 : Int) : ZMod DEFAULT_PRIME))) *
        ((rInv DEFAULT_PRIME pts j : Int) : ZMod DEFAULT_PRIME) = 1 := by
    intro j hj
    have hN := (numden_cast DEFAULT_PRIME pts j).2
    rw [ht] at hN
    rw [← hN]
    exact (hden j hj).2
  have hlag := lagrange_sum_eval_zero t
    (fun j => (((pts.getD j (0, 0)).1 : Int) : ZMod DEFAULT_PRIME))
    (fun j => (((pts.getD j (0, 0)).2 : Int) : ZMod DEFAULT_PRIME))
    (fun j => ((rInv DEFAULT_PRIME pts j : Int) : ZMod DEFAULT_PRIME))
    (polyOf DEFAULT_PRIME ((b : Int) :: ctail))
    hdeg hy hunit hu
  have hcast : ((sFold DEFAULT_PRIME pts t : Int) : ZMod DEFAULT_PRIME) =
      ((b : Nat) : ZMod DEFAULT_PRIME) := by
    rw [sFold_cast]
    have hterm : ∀ j ∈ Finset.range t,
        (((pts.getD j (0, 0)).2 : Int) : ZMod DEFAULT_PRIME) *
          ((((numden DEFAULT_PRIME pts j).1 : Int) : ZMod DEFAULT_PRIME) *
            ((rInv DEFAULT_PRIME pts j : Int) : ZMod DEFAULT_PRIME)) =
        (((pts.getD j (0, 0)).2 : Int) : ZMod DEFAULT_PRIME) *
          ((∏ i in (Finset.range t).erase j,
            (0 - (((pts.getD i (0, 0)).1 : Int) : ZMod DEFAULT_PRIME))) *
            ((rInv DEFAULT_PRIME pts j : Int) : ZMod DEFAULT_PRIME)) := by
      intro j hj
      have hN := (numden_cast DEFAULT_PRIME pts j).1
      rw [ht] at hN
      rw [hN]
    rw [Finset.sum_congr rfl hterm, hlag, polyOf_eval_zero]
    push_cast
    rfl
  have hbnd := sFold_bounds DEFAULT_PRIME (by decide) pts t
  have hmod : sFold DEFAULT_PRIME pts t ≡ ((b : Nat) : Int)
      [ZMOD ((DEFAULT_PRIME : Nat) : Int)] := by
    rw [← ZMod.intCast_eq_intCast_iff]
    rw [hcast]
    push_cast
    rfl
  have hveq : sFold DEFAULT_PRIME pts t = ((b : Nat) : Int) := by
    have h2 := hmod.eq
    rw [Int.emod_eq_of_lt hbnd.1 hbnd.2] at h2
    rw [Int.emod_eq_of_lt (by positivity) (by exact_mod_cast lt_trans hb (by decide))] at h2
    exact h2
  rw [hfold, hveq]

/-! ### Round trip assembly -/

theorem reconstructBytes_ok_map (p : Nat) (shares : List (List (Int × Int)))
    (w : Nat → Int) :
    ∀ l : List Nat,
      (∀ bi ∈ l, ∃ pts, getPoints shares bi = .ok pts ∧
        lagrangeAtZero p pts = .ok (w bi)) →
      reconstructBytes p shares l =
        .ok (l.map fun bi => (finalizeByte p (w bi)).toNat) := by
  intro l
  induction l with
  | nil => intro _; rfl
  | cons a tl ih =>
    intro h
    obtain ⟨pts, hg, hl⟩ := h a (List.mem_cons_self a tl)
    have hrec := ih fun bi hbi => h bi (List.mem_cons_of_mem a hbi)
    simp only [reconstructBytes, hg, hl, hrec, List.map_cons]

theorem finalizeByte_byte (p : Nat) (b : Nat) (hb : b < 256) (hbp : b < p) :
    finalizeByte p ((b : Nat) : Int) = ((b : Nat) : Int) := by
  simp only [finalizeByte]
  have h1 : ((b : Nat) : Int) % (p : Int) = ((b : Nat) : Int) :=
    Int.emod_eq_of_lt (by positivity) (by exact_mod_cast hbp)
  rw [h1, if_neg]
  push_cast
  omega

theorem map_getD_range_self (l : List Nat) :
    (List.range l.length).map (fun i => l.getD i 0) = l := by
  apply List.ext_getElem
  · simp
  · intro i h1 h2
    simp [List.getD_eq_getElem?_getD, List.getElem?_eq_getElem h2]

theorem nodup_getD_ne (sel : List Nat) (h : sel.Nodup) (i j : Nat)
    (hi : i < sel.length) (hj : j < sel.length) (hij : i ≠ j) :
    sel.getD i 0 ≠ sel.getD j 0 := by
  rw [getD_of_lt sel i 0 hi, getD_of_lt sel j 0 hj]
  intro heq
  have h2 := h.get_inj_iff.mp heq
  exact hij (congrArg Fin.val h2)

theorem getD_mem_of_lt (l : List Nat) (i : Nat) (h : i < l.length) : l.getD i 0 ∈ l := by
  rw [getD_of_lt l i 0 h]
  exact List.get_mem l i h

/-- With the default modulus, splitting with `n ≤ 61` and reconstructing
from any `k`-subset of the shares returns the secret: every Lagrange
denominator is then a product of differences of magnitude at most 60, all
coprime to `61 * 1000000007`.  (For `n ≥ 62` this fails — see the C1
analysis — which isolates the composite default modulus as the culprit.) -/
theorem round_trip_upto_61 (secret : List Nat) (n k : Nat) (g : RNG) (sel : List Nat)
    (hsec : ∀ b ∈ secret, b < 256)
    (hk2 : 2 ≤ k) (hkn : k ≤ n) (hn : n ≤ 61)
    (hlen : sel.length = k) (hnd : sel.Nodup) (hmem : ∀ i ∈ sel, i < n) :
    ∃ shares g1, split_secret DEFAULT_PRIME secret n k g = (.ok shares, g1) ∧
      reconstruct_secret DEFAULT_PRIME (sel.map fun i => shares.getD i []) =
        .ok secret := by
  have hp : 0 < DEFAULT_PRIME := by decide
  have hsecp : ∀ b ∈ secret, b < DEFAULT_PRIME := fun b h =>
    lt_trans (hsec b h) (by decide)
  refine ⟨_, _, split_secret_ok DEFAULT_PRIME secret n k g hp hk2 hkn hsecp, ?_⟩
  obtain ⟨s0, sel2, rfl⟩ : ∃ s0 sel2, sel = s0 :: sel2 := by
    cases sel with
    | nil => simp at hlen; omega
    | cons a tl => exact ⟨a, tl, rfl⟩
  set SH := (List.range n).map (fun (si : Nat) =>
    (List.range secret.length).map fun (bi : Nat) =>
      (((si : Int) + 1),
       evaluate_polynomial DEFAULT_PRIME (coeffsFor DEFAULT_PRIME k secret g bi)
         ((si : Int) + 1))) with hSH
  set ssel := (s0 :: sel2).map (fun i => SH.getD i []) with hssel
  have hrow : ∀ i, i < n → SH.getD i [] =
      (List.range secret.length).map fun (bi : Nat) =>
        (((i : Int) + 1),
         evaluate_polynomial DEFAULT_PRIME (coeffsFor DEFAULT_PRIME k secret g bi)
           ((i : Int) + 1)) := by
    intro i hi
    rw [hSH, getD_map_range _ n i [] hi]
  have hrowlen : ∀ s ∈ ssel, s.length = secret.length := by
    intro s hs
    rw [hssel] at hs
    obtain ⟨i, hi, rfl⟩ := List.mem_map.mp hs
    rw [hrow i (hmem i hi)]
    simp
  have hsellen : ssel.length = k := by
    rw [hssel, List.length_map, hlen]
  have hheadmem : ssel.headD [] ∈ ssel := by
    rw [hssel, List.map_cons]
    exact List.mem_cons_self _ _
  have hhead : (ssel.headD []).length = secret.length := hrowlen _ hheadmem
  have hie : ssel.isEmpty = false := by
    rw [hssel, List.map_cons]
    rfl
  have hbyte : ∀ bi ∈ List.range secret.length,
      ∃ pts, getPoints ssel bi = .ok pts ∧
        lagrangeAtZero DEFAULT_PRIME pts = .ok ((secret.getD bi 0 : Nat) : Int) := by
    intro bi hbi
    have hbi2 : bi < secret.length := List.mem_range.mp hbi
    refine ⟨ssel.map fun s => s.getD bi (0, 0),
      getPoints_ok ssel bi (fun s hs => by rw [hrowlen s hs]; exact hbi2), ?_⟩
    refine lagrangeAtZero_ok_byte (ssel.map fun s => s.getD bi (0, 0))
      (secret.getD bi 0)
      ((List.range (k - 1)).map fun c =>
        ((g.tape (g.pos + bi * (k - 1) + c) % DEFAULT_PRIME : Nat) : Int))
      (fun j => (s0 :: sel2).getD j 0 + 1) k
      ?_ ?_ ?_ ?_ ?_ ?_ ?_
    · exact hsec _ (getD_mem_of_lt secret bi hbi2)
    · rw [List.length_map, hsellen]
    · simp
      omega
    · intro j hj
      have hjlen : j < ssel.length := by rw [hsellen]; exact hj
      have hjsel : j < (s0 :: sel2).length := by rw [hlen]; exact hj
      rw [getD_map_of_lt _ ssel j (0, 0) [] hjlen]
      rw [hssel, getD_map_of_lt _ (s0 :: sel2) j [] 0 hjsel]
      have hji : (s0 :: sel2).getD j 0 < n := hmem _ (getD_mem_of_lt _ j hjsel)
      rw [hrow _ hji, getD_map_range _ secret.length bi (0, 0) hbi2]
      have hx : (((s0 :: sel2).getD j 0 + 1 : Nat) : Int) =
          (((s0 :: sel2).getD j 0 : Nat) : Int) + 1 := by
        push_cast
        ring
      have hcoef : coeffsFor DEFAULT_PRIME k secret g bi =
          ((secret.getD bi 0 : Nat) : Int) ::
            (List.range (k - 1)).map (fun c =>
              ((g.tape (g.pos + bi * (k - 1) + c) % DEFAULT_PRIME : Nat) : Int)) := rfl
      rw [hx, hcoef]
    · intro j hj
      show 1 ≤ (s0 :: sel2).getD j 0 + 1
      omega
    · intro j hj
      show (s0 :: sel2).getD j 0 + 1 ≤ 61
      have hjsel : j < (s0 :: sel2).length := by rw [hlen]; exact hj
      have := hmem _ (getD_mem_of_lt _ j hjsel)
      omega
    · intro i j hi hj hij
      show (s0 :: sel2).getD i 0 + 1 ≠ (s0 :: sel2).getD j 0 + 1
      have hisel : i < (s0 :: sel2).length := by rw [hlen]; exact hi
      have hjsel : j < (s0 :: sel2).length := by rw [hlen]; exact hj
      have := nodup_getD_ne _ hnd i j hisel hjsel hij
      omega
  have hrec := reconstructBytes_ok_map DEFAULT_PRIME ssel
    (fun bi => ((secret.getD bi 0 : Nat) : Int)) (List.range secret.length) hbyte
  simp only [reconstruct_secret, hie, Bool.false_eq_true, if_false, hhead]
  rw [hrec]
  congr 1
  have hmapeq : ∀ bi ∈ List.range secret.length,
      (finalizeByte DEFAULT_PRIME ((secret.getD bi 0 : Nat) : Int)).toNat =
        secret.getD bi 0 := by
    intro bi hbi
    have hbi2 := List.mem_range.mp hbi
    rw [finalizeByte_byte DEFAULT_PRIME _ (hsec _ (getD_mem_of_lt secret bi hbi2))
      (hsecp _ (getD_mem_of_lt secret bi hbi2)), Int.toNat_natCast]
  rw [List.map_congr_left hmapeq, map_getD_range_self]

/-- A concrete instance of the round trip: the two-byte secret `[202, 13]`
split five ways with threshold 3 and reconstructed from shares 0, 2, 4. -/
theorem round_trip_upto_61_example :
    ∃ shares g1,
      split_secret DEFAULT_PRIME [202, 13] 5 3 ⟨fun i => i * i + 7, 0⟩ =
        (.ok shares, g1) ∧
      reconstruct_secret DEFAULT_PRIME (([0, 2, 4] : List Nat).map fun i => shares.getD i []) =
        .ok [202, 13] :=
  round_trip_upto_61 [202, 13] 5 3 ⟨fun i => i * i + 7, 0⟩ [0, 2, 4]
    (by decide) (by decide) (by decide) (by decide) (by decide) (by decide) (by decide)

/-! ## Claims -/

/-- Claim C1: round-trip correctness for all `2 ≤ t ≤ n ≤ 255` fails on the
code's default modulus.  `DEFAULT_PRIME = 61 * 1000000007` is divisible
by 61, so with `n = 62`, the one-byte secret `0x00`, all-zero random
coefficients and the share subset `{share 0, share 61}` (x-coordinates 1
and 62), the denominator `1 - 62 = -61` shares the factor 61 with the
modulus and `reconstruct_secret` fails with the modular-inverse error
instead of returning the secret. -/
theorem c1_round_trip_fails_on_default_modulus :
    (split_secret DEFAULT_PRIME [0] 62 2 ⟨fun _ => 0, 0⟩).1 =
      .ok ((List.range 62).map fun (i : Nat) => [(((i : Int) + 1), (0 : Int))]) ∧
    ((List.range 62).map fun (i : Nat) => [(((i : Int) + 1), (0 : Int))]).getD 0 [] =
      [(1, 0)] ∧
    ((List.range 62).map fun (i : Nat) => [(((i : Int) + 1), (0 : Int))]).getD 61 [] =
      [(62, 0)] ∧
    reconstruct_secret DEFAULT_PRIME [[(1, 0)], [(62, 0)]] = .error .noInverse ∧
    reconstruct_secret DEFAULT_PRIME [[(1, 0)], [(62, 0)]] ≠ .ok [0] ∧
    DEFAULT_PRIME = 61 * 1000000007 ∧ DEFAULT_PRIME % 61 = 0 := by decide

/-- Claim C2: the pre-image sampler never adjusts its random vector, so for
the 1-by-1 zero-matrix hash function over the 256-bit field and target
vector `[1]`, every random choice yields an `x` whose hash is `[0] ≠ [1]`:
the promised property `H(x*) = target` fails for every RNG state. -/
theorem c2_sample_preimage_misses_target :
    ∀ g : RNG, ∃ x : List Int,
      (sample_preimage P256 [1] ⟨1, 1, P256, [[0]]⟩ g).1 = .ok x ∧
      HashFunction.hash ⟨1, 1, P256, [[0]]⟩ x = .ok [0] ∧
      (Except.ok [0] : Except Err (List Int)) ≠ .ok [1] := by
  intro g
  refine ⟨[((0 + g.tape g.pos % (P256 - 1 - 0 + 1) : Nat) : Int)], rfl, ?_, by decide⟩
  show (if (1 : Nat) ≠ 1 then (Except.error Err.inputDimMismatch : Except Err (List Int))
    else .ok ((List.range 1).map fun i =>
      (List.range 1).foldl
        (fun val j => (val + ([[(0 : Int)]].getD i []).getD j 0 *
          (([((0 + g.tape g.pos % (P256 - 1 - 0 + 1) : Nat) : Int)]).getD j 0)) %
            ((P256 : Nat) : Int)) 0)) = .ok [0]
  rw [if_neg (by decide), show List.range 1 = [0] from rfl]
  simp

/-- Claim C3, counterexample: on two shares carrying the same x-coordinate,
`reconstruct_secret` returns exactly the error raised by `_mod_inverse`
itself (the denominator is 0), not a distinct duplicate-x error — no such
distinct error exists in the code. -/
theorem c3_counterexample :
    reconstruct_secret DEFAULT_PRIME [[(1, 5)], [(1, 7)]] = .error .noInverse ∧
    mod_inverse 0 DEFAULT_PRIME = .error .noInverse := by decide

/-- Claim C3, amended: for a non-empty list of equal-length shares in which
two shares carry the same x-coordinate at some byte index,
`reconstruct_secret` fails by propagating the modular-inverse failure
(`_mod_inverse` on the zero denominator), the only error it can raise
there; the code has no distinct `DuplicateXCoordinateError`. -/
theorem c3_duplicate_x_propagates_inverse_failure (p : Nat)
    (shares : List (List (Int × Int))) (a b bi : Nat)
    (hp : 1 < p) (hne : shares ≠ [])
    (hlen : ∀ s ∈ shares, s.length = (shares.headD []).length)
    (hab : a ≠ b) (ha : a < shares.length) (hb : b < shares.length)
    (hbi : bi < (shares.headD []).length)
    (hx : ((shares.getD a []).getD bi (0, 0)).1 = ((shares.getD b []).getD bi (0, 0)).1) :
    reconstruct_secret p shares = .error .noInverse := by
  have hie : shares.isEmpty = false := by
    cases shares with
    | nil => exact absurd rfl hne
    | cons s r => rfl
  simp only [reconstruct_secret, hie, Bool.false_eq_true, if_false]
  apply reconstructBytes_err p hp shares (List.range (shares.headD []).length)
    (fun s hs bi2 hbi2 => by rw [hlen s hs]; exact List.mem_range.mp hbi2)
    bi (List.mem_range.mpr hbi)
  apply lagrangeAtZero_err p hp _ a (by simpa using ha)
  apply numden_snd_zero p _ a b (Ne.symm hab) (by simpa using hb)
  rw [getD_map_of_lt _ shares a (0, 0) [] ha, getD_map_of_lt _ shares b (0, 0) [] hb]
  exact hx

/-- Claim C3, witness: the amended theorem applied to the concrete
duplicate-x share list `[[(1,5)], [(1,7)]]`. -/
theorem c3_witness :
    reconstruct_secret DEFAULT_PRIME [[(1, 5)], [(1, 7)]] = .error .noInverse :=
  c3_duplicate_x_propagates_inverse_failure DEFAULT_PRIME [[(1, 5)], [(1, 7)]] 0 1 0
    (by decide) (by decide) (by decide) (by decide) (by decide) (by decide)
    (by decide) (by decide)

/-- Claim C4, counterexample: with a first share of one point and a second
share of two points (mismatched lengths), `reconstruct_secret` does not
fail: it silently returns one reconstructed byte, truncating the second
share's extra point. -/
theorem c4_counterexample :
    reconstruct_secret DEFAULT_PRIME [[(1, 0)], [(2, 0), (2, 1)]] = .ok [0] := by decide

/-- Claim C4, amended: `reconstruct_secret` performs no length validation
and has no `MismatchedSharesError`; its result depends only on the first
`len(shares[0])` points of every share — extra points are silently
ignored (and a share shorter than the first fails with an index error
when its missing position is reached). -/
theorem c4_reconstruct_truncates_to_first_share (p : Nat)
    (shares : List (List (Int × Int))) :
    reconstruct_secret p shares =
      reconstruct_secret p (shares.map fun s => s.take (shares.headD []).length) :=
  reconstruct_take p shares

/-- Claim C5: with the default modulus and byte-valued secrets, splitting
succeeds for `t = 2` and `t = n` (given `2 ≤ n`), and fails with the
threshold error for `t = 1` and `t = n + 1`, returning no shares and
leaving the RNG untouched. -/
theorem c5_threshold_boundary (secret : List Nat) (n : Nat) (g : RNG)
    (hn : 2 ≤ n) (hb : ∀ b ∈ secret, b < 256) :
    (∃ shares g1, split_secret DEFAULT_PRIME secret n 2 g = (.ok shares, g1)) ∧
    (∃ shares g1, split_secret DEFAULT_PRIME secret n n g = (.ok shares, g1)) ∧
    split_secret DEFAULT_PRIME secret n 1 g = (.error .invalidParams, g) ∧
    split_secret DEFAULT_PRIME secret n (n + 1) g = (.error .invalidParams, g) := by
  have hp : 0 < DEFAULT_PRIME := by decide
  have hb2 : ∀ b ∈ secret, b < DEFAULT_PRIME := fun b h =>
    lt_trans (hb b h) (by decide)
  refine ⟨⟨_, _, split_secret_ok DEFAULT_PRIME secret n 2 g hp le_rfl hn hb2⟩,
    ⟨_, _, split_secret_ok DEFAULT_PRIME secret n n g hp hn le_rfl hb2⟩,
    split_secret_invalid DEFAULT_PRIME secret n 1 g (Or.inr (by omega)),
    split_secret_invalid DEFAULT_PRIME secret n (n + 1) g (Or.inl (by omega))⟩

/-- Claim C5, witness: the threshold-boundary theorem at the one-byte
secret `[7]`, `n = 2`, and the all-zero tape. -/
theorem c5_witness :
    (∃ shares g1, split_secret DEFAULT_PRIME [7] 2 2 ⟨fun _ => 0, 0⟩ = (.ok shares, g1)) ∧
    (∃ shares g1, split_secret DEFAULT_PRIME [7] 2 2 ⟨fun _ => 0, 0⟩ = (.ok shares, g1)) ∧
    split_secret DEFAULT_PRIME [7] 2 1 ⟨fun _ => 0, 0⟩ =
      (.error .invalidParams, ⟨fun _ => 0, 0⟩) ∧
    split_secret DEFAULT_PRIME [7] 2 (2 + 1) ⟨fun _ => 0, 0⟩ =
      (.error .invalidParams, ⟨fun _ => 0, 0⟩) :=
  c5_threshold_boundary [7] 2 ⟨fun _ => 0, 0⟩ (by decide) (by decide)

/-- Claim C6: `_mod_inverse(a, m)` for `m > 1` returns the unique
`x ∈ [0, m)` with `a·x ≡ 1 (mod m)` whenever `gcd(a mod m, m) = 1`
(negative `a` being normalized first), and fails with the no-inverse
error whenever `gcd(a mod m, m) ≠ 1` (in particular for `a ≡ 0`). -/
theorem c6_mod_inverse_spec (a : Int) (m : Nat) (hm : 1 < m) :
    (Nat.gcd (a % (m : Int)).toNat m = 1 →
      ∃ r, mod_inverse a m = .ok r ∧ 0 ≤ r ∧ r < (m : Int) ∧
        (a * r) % (m : Int) = 1 ∧
        ∀ x : Int, 0 ≤ x → x < (m : Int) → (a * x) % (m : Int) = 1 → x = r) ∧
    (Nat.gcd (a % (m : Int)).toNat m ≠ 1 → mod_inverse a m = .error .noInverse) := by
  constructor
  · intro h
    obtain ⟨r, hok, h0, h1, hinv⟩ := mod_inverse_ok hm h
    exact ⟨r, hok, h0, h1, hinv,
      fun x hx0 hx1 hxi => inverse_unique hm h0 h1 hinv hx0 hx1 hxi⟩
  · intro h
    exact mod_inverse_err (lt_trans Nat.zero_lt_one hm) h

/-- Claim C6, witness: the specification applied at `a = -3`, `m = 7`
(exercising the negative-input normalization). -/
theorem c6_witness :
    (Nat.gcd ((-3 : Int) % ((7 : Nat) : Int)).toNat 7 = 1 →
      ∃ r, mod_inverse (-3) 7 = .ok r ∧ 0 ≤ r ∧ r < ((7 : Nat) : Int) ∧
        ((-3) * r) % ((7 : Nat) : Int) = 1 ∧
        ∀ x : Int, 0 ≤ x → x < ((7 : Nat) : Int) →
          ((-3) * x) % ((7 : Nat) : Int) = 1 → x = r) ∧
    (Nat.gcd ((-3 : Int) % ((7 : Nat) : Int)).toNat 7 ≠ 1 →
      mod_inverse (-3) 7 = .error .noInverse) :=
  c6_mod_inverse_spec (-3) 7 (by decide)

/-- Claim C7: under the precondition, `split_secret` returns exactly `n`
shares; share `j` has one point per secret byte, its `i`-th entry being
`(j+1, P_i(j+1))` where `P_i` is the Horner-evaluated polynomial with `k`
coefficients whose constant term is byte `i`; the x-coordinates are the
fixed values `1..n`, identical across byte positions, and the points
appear in byte order. -/
theorem c7_split_structure (p : Nat) (secret : List Nat) (n k : Nat) (g : RNG)
    (hp : 0 < p) (hk2 : 2 ≤ k) (hkn : k ≤ n) (hb : ∀ b ∈ secret, b < p) :
    ∃ shares g1, split_secret p secret n k g = (.ok shares, g1) ∧
      shares.length = n ∧
      (∀ j, j < n → (shares.getD j []).length = secret.length) ∧
      (∀ j i, j < n → i < secret.length →
        (shares.getD j []).getD i (0, 0) =
          (((j : Int) + 1),
           evaluate_polynomial p (coeffsFor p k secret g i) ((j : Int) + 1))) ∧
      (∀ i, i < secret.length →
        (coeffsFor p k secret g i).length = k ∧
        (coeffsFor p k secret g i).getD 0 0 = (secret.getD i 0 : Int)) := by
  refine ⟨_, _, split_secret_ok p secret n k g hp hk2 hkn hb, ?_, ?_, ?_, ?_⟩
  · simp
  · intro j hj
    rw [getD_map_range _ n j [] hj]
    simp
  · intro j i hj hi
    rw [getD_map_range _ n j [] hj, getD_map_range _ secret.length i (0, 0) hi]
  · intro i hi
    constructor
    · unfold coeffsFor
      simp
      omega
    · unfold coeffsFor
      simp

/-- Claim C7, witness: the structure theorem at `p = 7`, secret `[3]`,
`n = 2`, `k = 2`, all-zero tape. -/
theorem c7_witness :
    ∃ shares g1, split_secret 7 [3] 2 2 ⟨fun _ => 0, 0⟩ = (.ok shares, g1) ∧
      shares.length = 2 ∧
      (∀ j, j < 2 → (shares.getD j []).length = ([3] : List Nat).length) ∧
      (∀ j i, j < 2 → i < ([3] : List Nat).length →
        (shares.getD j []).getD i (0, 0) =
          (((j : Int) + 1),
           evaluate_polynomial 7 (coeffsFor 7 2 [3] ⟨fun _ => 0, 0⟩ i) ((j : Int) + 1))) ∧
      (∀ i, i < ([3] : List Nat).length →
        (coeffsFor 7 2 [3] ⟨fun _ => 0, 0⟩ i).length = 2 ∧
        (coeffsFor 7 2 [3] ⟨fun _ => 0, 0⟩ i).getD 0 0 = (([3] : List Nat).getD i 0 : Int)) :=
  c7_split_structure 7 [3] 2 2 ⟨fun _ => 0, 0⟩ (by decide) (by decide) (by decide)
    (by decide)

/-- Claim C8, counterexample: with the custom modulus 100 and secret
`[5, 200]`, the first byte consumes one random draw (the position advances
from 0 to 1) before the second byte is rejected as out of field range —
the failed call is partially executed. -/
theorem c8_counterexample :
    (split_secret 100 [5, 200] 2 2 ⟨fun _ => 0, 0⟩).1 = .error .byteTooLarge ∧
    (split_secret 100 [5, 200] 2 2 ⟨fun _ => 0, 0⟩).2.pos = 1 ∧
    (1 : Nat) ≠ 0 := by decide

/-- Claim C8, amended: threshold errors are raised with the RNG state
untouched, before any randomness; a field-range error on byte `i`,
however, is raised only after the coefficient draws for bytes `0..i-1`
(`i * (k-1)` positions) have been consumed — the check for each byte
precedes that byte's own draws but not the earlier bytes'. -/
theorem c8_randomness_consumption :
    (∀ (p : Nat) (secret : List Nat) (n k : Nat) (g : RNG),
      k > n ∨ k < 2 → split_secret p secret n k g = (.error .invalidParams, g)) ∧
    (∀ (p : Nat) (secret : List Nat) (n k : Nat) (g : RNG) (e : Err) (g1 : RNG),
      ¬(k > n ∨ k < 2) → split_secret p secret n k g = (.error e, g1) →
      e = .byteTooLarge ∧ ∃ i, i < secret.length ∧ p ≤ secret.getD i 0 ∧
        (∀ z, z < i → secret.getD z 0 < p) ∧ g1.pos = g.pos + i * (k - 1)) := by
  constructor
  · exact fun p secret n k g h => split_secret_invalid p secret n k g h
  · intro p secret n k g e g1 hcond h
    simp only [split_secret, if_neg hcond] at h
    rcases hrec : splitBytes p n k secret g with ⟨res, g2⟩
    rw [hrec] at h
    cases res with
    | ok bs => simp at h
    | error e2 =>
      simp only [Prod.mk.injEq] at h
      obtain ⟨he2, i, hi1, hi2, hi3, hi4⟩ := splitBytes_err p n k secret g e2 g2 hrec
      refine ⟨by rw [← Except.error.inj h.1, he2], i, hi1, hi2, hi3, ?_⟩
      rw [← h.2, hi4]

/-- Claim C8, witness: the invalid-threshold half of the amended theorem at
`p = 100`, secret `[5, 200]`, `n = 2`, `t = 1`: the error is raised with
the RNG state returned unchanged. -/
theorem c8_witness :
    split_secret 100 [5, 200] 2 1 ⟨fun _ => 0, 0⟩ =
      (.error .invalidParams, ⟨fun _ => 0, 0⟩) :=
  c8_randomness_consumption.1 100 [5, 200] 2 1 ⟨fun _ => 0, 0⟩ (by decide)

/-- Claim C9, counterexample: a hash function of output dimension 2 against
shares of one point each is a dimension mismatch, yet
`reconstruct_secret_with_hashing` raises no error and happily returns a
byte. -/
theorem c9_counterexample :
    reconstruct_secret_with_hashing [[(1, 0)], [(2, 0)]] ⟨8, 2, P256, [[], []]⟩ =
      .ok [0] ∧
    (⟨8, 2, P256, [[], []]⟩ : HashFunction).l = 2 ∧
    (([[(1, 0)], [(2, 0)]] : List (List (Int × Int))).headD []).length = 1 ∧
    (2 : Nat) ≠ 1 := by decide

/-- Claim C9, amended: `reconstruct_secret_with_hashing` never validates
the hash function's dimensions (it never reads the hash argument at all)
and has no `HashMismatchError`; it is plain Lagrange reconstruction over
the 256-bit modulus. -/
theorem c9_no_dimension_check (shares : List (List (Int × Int))) (H : HashFunction) :
    reconstruct_secret_with_hashing shares H = reconstruct_secret P256 shares := rfl

/-- Claim C10: for every non-empty share list, the reconstructed result of
`reconstruct_secret_with_hashing` is identical for any two hash functions:
the hash argument has no influence on the output. -/
theorem c10_hash_function_irrelevant (shares : List (List (Int × Int)))
    (h1 h2 : HashFunction) (hne : shares ≠ []) :
    reconstruct_secret_with_hashing shares h1 =
      reconstruct_secret_with_hashing shares h2 := rfl

/-- Claim C10, witness: two hash functions of entirely different
dimensions, moduli and matrices yield the same reconstruction on the
concrete share list `[[(1, 0)], [(2, 0)]]`. -/
theorem c10_witness :
    reconstruct_secret_with_hashing [[(1, 0)], [(2, 0)]] ⟨1, 1, 5, [[2]]⟩ =
      reconstruct_secret_with_hashing [[(1, 0)], [(2, 0)]] ⟨3, 4, 11, [[1], [2], [3]]⟩ :=
  c10_hash_function_irrelevant [[(1, 0)], [(2, 0)]] ⟨1, 1, 5, [[2]]⟩
    ⟨3, 4, 11, [[1], [2], [3]]⟩ (by decide)
